import Mathlib

/-!
Verification of the stream framing, decoding and latency-statistics core of
`src/receiver.cpp` (a single-connection GPS telemetry receiver).

The embedding is shallow: bytes are natural numbers below 256 carried as `Nat`,
the accumulation buffer is a `List Nat`, delays are exact rationals `ℚ`
(the C++ `double` arithmetic on the values involved in the claims is exact),
and the running minimum (seeded at `+∞` in the source) lives in `WithTop ℚ`.
The integer-to-float conversions performed by `unpack_data` (assigning
`ntohl`/`be64toh` results to `float`/`double` fields) are modelled exactly by
round-to-nearest-even on the significand (`roundFloat`), which is the
conversion every IEEE-754 platform performs for these assignments.
-/

namespace Receiver

/-- `MSG_SIZE` from the source: 24 = 4+4+4+8 bytes. -/
def MSG_SIZE : Nat := 24

/-- `DELAY_WINDOW` from the source: the rolling window bound. -/
def DELAY_WINDOW : Nat := 5

/-- Big-endian 32-bit read, as performed by `memcpy` + `ntohl`. -/
def be32 (b0 b1 b2 b3 : Nat) : Nat :=
  ((b0 * 256 + b1) * 256 + b2) * 256 + b3

/-- Big-endian 64-bit read, as performed by `memcpy` + `be64toh`. -/
def be64 (b0 b1 b2 b3 b4 b5 b6 b7 : Nat) : Nat :=
  ((((((b0 * 256 + b1) * 256 + b2) * 256 + b3) * 256 + b4) * 256 + b5) * 256
      + b6) * 256 + b7

/-- Floor of the base-2 logarithm (0 at 0), via a structurally decreasing
fuel so that concrete evaluation reduces in the kernel. -/
def log2floor : Nat → Nat → Nat
  | 0, _ => 0
  | fuel + 1, n => if 2 ≤ n then log2floor fuel (n / 2) + 1 else 0

/-- IEEE-754 round-to-nearest-even of a natural number to `prec` significand
bits: the exact value produced by converting an unsigned integer to a binary
floating-point type with a `prec`-bit significand (no overflow occurs for the
ranges used here). -/
def roundFloat (prec : Nat) (n : Nat) : Nat :=
  let k := log2floor n n
  if k + 1 ≤ prec then n
  else
    let s := k + 1 - prec
    let q := n / 2 ^ s
    let r := n % 2 ^ s
    let half := 2 ^ (s - 1)
    let q2 := if half < r ∨ (r = half ∧ q % 2 = 1) then q + 1 else q
    q2 * 2 ^ s

/-- `GPSData` from the source; field values are the exact rationals held by the
C++ `float`/`double` fields after `unpack_data`. -/
structure GPSData where
  lat : ℚ
  lon : ℚ
  alt : ℚ
  timestamp : ℚ
  deriving DecidableEq, Repr

/-- `unpack_data` from the source: reads the three 32-bit fields and the 64-bit
field in network byte order and stores the resulting *integers* into the
floating-point fields (`result.lat = ntohl(temp)` is an integer-to-float
numeric conversion on every platform, not a bit reinterpretation). -/
def unpack_data (data : List Nat) : GPSData :=
  { lat := (roundFloat 24 (be32 (data.getD 0 0) (data.getD 1 0)
      (data.getD 2 0) (data.getD 3 0)) : ℚ)
    lon := (roundFloat 24 (be32 (data.getD 4 0) (data.getD 5 0)
      (data.getD 6 0) (data.getD 7 0)) : ℚ)
    alt := (roundFloat 24 (be32 (data.getD 8 0) (data.getD 9 0)
      (data.getD 10 0) (data.getD 11 0)) : ℚ)
    timestamp := (roundFloat 53 (be64 (data.getD 12 0) (data.getD 13 0)
      (data.getD 14 0) (data.getD 15 0) (data.getD 16 0) (data.getD 17 0)
      (data.getD 18 0) (data.getD 19 0)) : ℚ) }

/-- Fuel-indexed form of the drain loop
`while (metrics.buffer.size() >= MSG_SIZE) { ... erase front 24 ... }`;
the fuel only serves structural recursion and `drain` instantiates it
adequately. Returns the extracted frames in order and the remainder. -/
def drainAux : Nat → List Nat → List (List Nat) × List Nat
  | 0, buf => ([], buf)
  | fuel + 1, buf =>
    if MSG_SIZE ≤ buf.length then
      let r := drainAux fuel (buf.drop MSG_SIZE)
      (buf.take MSG_SIZE :: r.1, r.2)
    else ([], buf)

/-- The drain loop of `start_receiver`: extract 24-byte frames from the front
of the buffer while at least 24 bytes are present. -/
def drain (buf : List Nat) : List (List Nat) × List Nat :=
  drainAux buf.length buf

theorem drainAux_congr :
    ∀ f1 : Nat, ∀ f2 : Nat, ∀ buf : List Nat,
      buf.length ≤ f1 → buf.length ≤ f2 → drainAux f1 buf = drainAux f2 buf := by
  intro f1
  induction f1 with
  | zero =>
    intro f2 buf h1 _
    have hb : buf.length = 0 := Nat.le_zero.mp h1
    cases f2 with
    | zero => rfl
    | succ f2 =>
      simp only [drainAux]
      rw [if_neg]
      simp [MSG_SIZE, hb]
  | succ f1 ih =>
    intro f2 buf h1 h2
    cases f2 with
    | zero =>
      have hb : buf.length = 0 := Nat.le_zero.mp h2
      simp only [drainAux]
      rw [if_neg]
      simp [MSG_SIZE, hb]
    | succ f2 =>
      simp only [drainAux]
      by_cases hms : MSG_SIZE ≤ buf.length
      · rw [if_pos hms, if_pos hms]
        have hd : (buf.drop MSG_SIZE).length ≤ f1 := by
          simp only [List.length_drop]
          have : (1:Nat) ≤ MSG_SIZE := by simp [MSG_SIZE]
          omega
        have hd2 : (buf.drop MSG_SIZE).length ≤ f2 := by
          simp only [List.length_drop]
          have : (1:Nat) ≤ MSG_SIZE := by simp [MSG_SIZE]
          omega
        rw [ih f2 (buf.drop MSG_SIZE) hd hd2]
      · rw [if_neg hms, if_neg hms]

/-- The defining equation of `drain`, mirroring one iteration of the source's
while-loop. -/
theorem drain_eq (buf : List Nat) :
    drain buf =
      if MSG_SIZE ≤ buf.length then
        (buf.take MSG_SIZE :: (drain (buf.drop MSG_SIZE)).1,
          (drain (buf.drop MSG_SIZE)).2)
      else ([], buf) := by
  by_cases hms : MSG_SIZE ≤ buf.length
  · rw [if_pos hms]
    have hlen1 : (1:Nat) ≤ buf.length := by
      have : (1:Nat) ≤ MSG_SIZE := by simp [MSG_SIZE]
      omega
    obtain ⟨n, hn⟩ : ∃ n, buf.length = n + 1 := by
      cases h : buf.length with
      | zero => omega
      | succ m => exact ⟨m, rfl⟩
    unfold drain
    rw [hn]
    simp only [drainAux]
    rw [if_pos (hn ▸ hms)]
    have hcg : drainAux n (buf.drop MSG_SIZE)
        = drainAux (buf.drop MSG_SIZE).length (buf.drop MSG_SIZE) := by
      apply drainAux_congr
      · simp only [List.length_drop]
        have : (1:Nat) ≤ MSG_SIZE := by simp [MSG_SIZE]
        omega
      · exact le_rfl
    rw [hcg]
  · rw [if_neg hms]
    unfold drain
    cases h : buf.length with
    | zero => rfl
    | succ m =>
      simp only [drainAux]
      rw [if_neg (h ▸ hms)]

theorem drain_rest_lt_aux :
    ∀ n : Nat, ∀ buf : List Nat, buf.length ≤ n →
      ((drain buf).2).length < MSG_SIZE := by
  intro n
  induction n with
  | zero =>
    intro buf hb
    rw [drain_eq]
    rw [if_neg]
    · simp only
      have : (1:Nat) ≤ MSG_SIZE := by simp [MSG_SIZE]
      omega
    · have : (1:Nat) ≤ MSG_SIZE := by simp [MSG_SIZE]
      omega
  | succ n ih =>
    intro buf hb
    rw [drain_eq]
    by_cases hms : MSG_SIZE ≤ buf.length
    · rw [if_pos hms]
      apply ih
      simp only [List.length_drop]
      have : (1:Nat) ≤ MSG_SIZE := by simp [MSG_SIZE]
      omega
    · rw [if_neg hms]
      simp only
      omega

/-- The remainder left by the drain loop is always shorter than one frame. -/
theorem drain_rest_lt (buf : List Nat) : ((drain buf).2).length < MSG_SIZE :=
  drain_rest_lt_aux buf.length buf le_rfl

theorem drain_length_aux :
    ∀ n : Nat, ∀ buf : List Nat, buf.length ≤ n →
      buf.length = MSG_SIZE * ((drain buf).1).length + ((drain buf).2).length := by
  intro n
  induction n with
  | zero =>
    intro buf hb
    have hb0 : buf.length = 0 := Nat.le_zero.mp hb
    rw [drain_eq, if_neg]
    · simp [hb0]
    · have : (1:Nat) ≤ MSG_SIZE := by simp [MSG_SIZE]
      omega
  | succ n ih =>
    intro buf hb
    rw [drain_eq]
    by_cases hms : MSG_SIZE ≤ buf.length
    · rw [if_pos hms]
      simp only [List.length_cons]
      have hrec := ih (buf.drop MSG_SIZE) (by
        simp only [List.length_drop]
        have : (1:Nat) ≤ MSG_SIZE := by simp [MSG_SIZE]
        omega)
      simp only [List.length_drop] at hrec
      rw [Nat.mul_add, Nat.mul_one]
      omega
    · rw [if_neg hms]
      simp

/-- Conservation: the drained frames and the remainder account for every byte
of the buffer. -/
theorem drain_length (buf : List Nat) :
    buf.length = MSG_SIZE * ((drain buf).1).length + ((drain buf).2).length :=
  drain_length_aux buf.length buf le_rfl

theorem drain_append_aux :
    ∀ n : Nat, ∀ b c : List Nat, b.length ≤ n →
      drain (b ++ c) =
        ((drain b).1 ++ (drain ((drain b).2 ++ c)).1,
          (drain ((drain b).2 ++ c)).2) := by
  intro n
  induction n with
  | zero =>
    intro b c hb
    have hb0 : b.length = 0 := Nat.le_zero.mp hb
    have hbnil : b = [] := List.eq_nil_of_length_eq_zero hb0
    subst hbnil
    rw [drain_eq ([] : List Nat), if_neg]
    · simp
    · have : (1:Nat) ≤ MSG_SIZE := by simp [MSG_SIZE]
      simp only [List.length_nil]
      omega
  | succ n ih =>
    intro b c hb
    by_cases hms : MSG_SIZE ≤ b.length
    · have hms2 : MSG_SIZE ≤ (b ++ c).length := by
        simp only [List.length_append]
        omega
      rw [drain_eq (b ++ c), if_pos hms2, drain_eq b, if_pos hms]
      have htake : (b ++ c).take MSG_SIZE = b.take MSG_SIZE :=
        List.take_append_of_le_length hms
      have hdrop : (b ++ c).drop MSG_SIZE = b.drop MSG_SIZE ++ c :=
        List.drop_append_of_le_length hms
      rw [htake, hdrop]
      have hrec := ih (b.drop MSG_SIZE) c (by
        simp only [List.length_drop]
        have : (1:Nat) ≤ MSG_SIZE := by simp [MSG_SIZE]
        omega)
      rw [hrec]
      simp
    · have hb2 : drain b = ([], b) := by
        rw [drain_eq, if_neg hms]
      rw [hb2]
      simp

/-- Splitting a buffer's input across two appends is the same as appending the
whole thing: drain the first part, carry its remainder, drain again. -/
theorem drain_append (b c : List Nat) :
    drain (b ++ c) =
      ((drain b).1 ++ (drain ((drain b).2 ++ c)).1,
        (drain ((drain b).2 ++ c)).2) :=
  drain_append_aux b.length b c le_rfl

/-- The read loop of `start_receiver` as a function of the successful reads:
starting from the current buffer, each chunk is appended
(`metrics.buffer.insert(metrics.buffer.end(), ...)`) and then the drain loop
runs; results are the extracted frames in order and the final buffer. -/
def feedChunks (buf : List Nat) : List (List Nat) → List (List Nat) × List Nat
  | [] => ([], buf)
  | c :: cs =>
    let r := drain (buf ++ c)
    let r2 := feedChunks r.2 cs
    (r.1 ++ r2.1, r2.2)

/-- Feeding chunks one at a time from a post-drain buffer is the same as
draining the buffer plus the concatenation of all chunks at once. -/
theorem feedChunks_eq_drain :
    ∀ cs : List (List Nat), ∀ buf : List Nat, buf.length < MSG_SIZE →
      feedChunks buf cs = drain (buf ++ cs.flatten) := by
  intro cs
  induction cs with
  | nil =>
    intro buf hb
    simp only [feedChunks, List.flatten_nil, List.append_nil]
    rw [drain_eq, if_neg (by omega)]
  | cons c cs ih =>
    intro buf hb
    simp only [feedChunks, List.flatten_cons]
    have hassoc : buf ++ (c ++ cs.flatten) = (buf ++ c) ++ cs.flatten := by
      simp [List.append_assoc]
    rw [hassoc, drain_append (buf ++ c) cs.flatten]
    rw [ih (drain (buf ++ c)).2 (drain_rest_lt (buf ++ c))]

/-- `calculate_latency` from the source, with the wall clock made explicit:
`(current_ts - sent_ts) * 1000` where `current_ts` is the receipt wall-clock
time in seconds (already truncated to millisecond resolution by the source). -/
def calculate_latency (current_ts sent_ts : ℚ) : ℚ :=
  (current_ts - sent_ts) * 1000

/-- The rolling-window push of the loop body: `delay_avg.push_back(latency);
if (delay_avg.size() > DELAY_WINDOW) delay_avg.pop_front();`. -/
def pushWindow (w : List ℚ) (d : ℚ) : List ℚ :=
  let w2 := w ++ [d]
  if DELAY_WINDOW < w2.length then w2.tail else w2

/-- The rolling average of the loop body: `0.0` when the window is empty,
otherwise the arithmetic mean of its contents. -/
def avgDelay (w : List ℚ) : ℚ :=
  if w.isEmpty then 0 else w.sum / (w.length : ℚ)

/-- The delay-statistics portion of the receiver's state: the local `delay_avg`
deque plus the statistics fields of the global `metrics` struct. `max_delay` is
initialised to `0.0` in the source and `min_delay` to `+∞`
(`std::numeric_limits<double>::infinity()`), modelled by `WithTop ℚ`. -/
structure Stats where
  delay_avg : List ℚ
  total_received : Nat
  max_delay : ℚ
  min_delay : WithTop ℚ
  delay_history : List ℚ
  deriving DecidableEq

/-- The initial statistics state at receiver start. -/
def initStats : Stats :=
  { delay_avg := []
    total_received := 0
    max_delay := 0
    min_delay := ⊤
    delay_history := [] }

/-- One render event handed to `display`: the instantaneous delay and the
rolling average, exactly the arguments the loop passes. -/
structure RenderEvent where
  current_delay : ℚ
  avg_delay : ℚ
  deriving DecidableEq

/-- The per-frame statistics update of the loop body (lines 176-194 of the
source): push the latency into the window, compute the rolling average, bump
`total_received`, fold the latency into the running extrema, append it to
`delay_history`, and emit the render event. -/
def statsStep (s : Stats) (d : ℚ) : Stats × RenderEvent :=
  let w := pushWindow s.delay_avg d
  let avg := avgDelay w
  ({ delay_avg := w
     total_received := s.total_received + 1
     max_delay := max s.max_delay d
     min_delay := min s.min_delay (d : WithTop ℚ)
     delay_history := s.delay_history ++ [d] },
   { current_delay := d, avg_delay := avg })

/-- Running the statistics update over a whole sequence of latencies from a
given state. -/
def runStatsFrom (s : Stats) (ds : List ℚ) : Stats :=
  ds.foldl (fun s d => (statsStep s d).1) s

/-- Running the statistics update over a whole session from the initial
state. -/
def runStats (ds : List ℚ) : Stats :=
  runStatsFrom initStats ds

/-- The byte-accounting portion of the receiver loop state: `total_bytes`,
`total_received` and the accumulation buffer of the global `metrics` struct. -/
structure NetState where
  total_bytes : Nat
  total_received : Nat
  buffer : List Nat
  deriving DecidableEq

/-- The state at receiver start: zero counters, empty buffer. -/
def initNet : NetState :=
  { total_bytes := 0, total_received := 0, buffer := [] }

/-- One successful read of the loop: `metrics.total_bytes += valread`, append
the bytes to the buffer, then run the drain loop, bumping `total_received`
once per extracted frame. -/
def netStep (s : NetState) (chunk : List Nat) : NetState :=
  let d := drain (s.buffer ++ chunk)
  { total_bytes := s.total_bytes + chunk.length
    total_received := s.total_received + d.1.length
    buffer := d.2 }

/-- The receiver loop over a sequence of successful reads. -/
def runNet (chunks : List (List Nat)) : NetState :=
  chunks.foldl netStep initNet

theorem pushWindow_eq_drop (w : List ℚ) (d : ℚ) (hw : w.length ≤ DELAY_WINDOW) :
    pushWindow w d = (w ++ [d]).drop (w.length + 1 - DELAY_WINDOW) := by
  unfold pushWindow
  by_cases h : DELAY_WINDOW < (w ++ [d]).length
  · rw [if_pos h]
    simp only [List.length_append, List.length_cons, List.length_nil] at h
    have hk : w.length + 1 - DELAY_WINDOW = 1 := by omega
    rw [hk, ← List.drop_one]
  · rw [if_neg h]
    simp only [List.length_append, List.length_cons, List.length_nil] at h
    have hk : w.length + 1 - DELAY_WINDOW = 0 := by omega
    rw [hk, List.drop_zero]

theorem foldl_pushWindow_eq_drop :
    ∀ ds : List ℚ, ∀ w : List ℚ, w.length ≤ DELAY_WINDOW →
      ds.foldl pushWindow w
        = (w ++ ds).drop (w.length + ds.length - DELAY_WINDOW) := by
  intro ds
  induction ds with
  | nil =>
    intro w hw
    simp only [List.foldl_nil, List.append_nil, List.length_nil, Nat.add_zero]
    have hk : w.length - DELAY_WINDOW = 0 := by omega
    rw [hk, List.drop_zero]
  | cons d ds ih =>
    intro w hw
    simp only [List.foldl_cons]
    rw [pushWindow_eq_drop w d hw]
    have hk : w.length + 1 - DELAY_WINDOW ≤ (w ++ [d]).length := by
      simp only [List.length_append, List.length_cons, List.length_nil]
      omega
    have hlen : ((w ++ [d]).drop (w.length + 1 - DELAY_WINDOW)).length
        ≤ DELAY_WINDOW := by
      simp only [List.length_drop, List.length_append, List.length_cons,
        List.length_nil]
      omega
    rw [ih _ hlen]
    rw [← List.drop_append_of_le_length hk]
    rw [List.drop_drop]
    have harr : (w ++ [d]) ++ ds = w ++ d :: ds := by
      simp
    rw [harr]
    congr 1
    simp only [List.length_drop, List.length_append, List.length_cons,
      List.length_nil]
    omega

theorem foldl_max_self_le {α : Type} [LinearOrder α] :
    ∀ ds : List α, ∀ a : α, a ≤ ds.foldl max a := by
  intro ds
  induction ds with
  | nil => intro a; exact le_rfl
  | cons d ds ih =>
    intro a
    exact le_trans (le_max_left a d) (ih (max a d))

theorem foldl_max_mem_le {α : Type} [LinearOrder α] :
    ∀ ds : List α, ∀ a : α, ∀ d : α, d ∈ ds → d ≤ ds.foldl max a := by
  intro ds
  induction ds with
  | nil => intro a d hd; cases hd
  | cons e ds ih =>
    intro a d hd
    rcases List.mem_cons.mp hd with h | h
    · subst h
      exact le_trans (le_max_right a d) (foldl_max_self_le ds (max a d))
    · exact ih (max a e) d h

theorem foldl_max_attained {α : Type} [LinearOrder α] :
    ∀ ds : List α, ∀ a : α, ds.foldl max a = a ∨ ds.foldl max a ∈ ds := by
  intro ds
  induction ds with
  | nil => intro a; exact Or.inl rfl
  | cons d ds ih =>
    intro a
    simp only [List.foldl_cons]
    rcases ih (max a d) with h | h
    · rw [h]
      rcases max_choice a d with h2 | h2
      · exact Or.inl h2
      · exact Or.inr (by rw [h2]; exact List.mem_cons_self d ds)
    · exact Or.inr (List.mem_cons_of_mem d h)

theorem foldl_min_le_self {α : Type} [LinearOrder α] :
    ∀ ds : List α, ∀ a : α, ds.foldl min a ≤ a := by
  intro ds
  induction ds with
  | nil => intro a; exact le_rfl
  | cons d ds ih =>
    intro a
    exact le_trans (ih (min a d)) (min_le_left a d)

theorem foldl_min_le_mem {α : Type} [LinearOrder α] :
    ∀ ds : List α, ∀ a : α, ∀ d : α, d ∈ ds → ds.foldl min a ≤ d := by
  intro ds
  induction ds with
  | nil => intro a d hd; cases hd
  | cons e ds ih =>
    intro a d hd
    rcases List.mem_cons.mp hd with h | h
    · subst h
      exact le_trans (foldl_min_le_self ds (min a d)) (min_le_right a d)
    · exact ih (min a e) d h

theorem foldl_min_attained {α : Type} [LinearOrder α] :
    ∀ ds : List α, ∀ a : α, ds.foldl min a = a ∨ ds.foldl min a ∈ ds := by
  intro ds
  induction ds with
  | nil => intro a; exact Or.inl rfl
  | cons d ds ih =>
    intro a
    simp only [List.foldl_cons]
    rcases ih (min a d) with h | h
    · rw [h]
      rcases min_choice a d with h2 | h2
      · exact Or.inl h2
      · exact Or.inr (by rw [h2]; exact List.mem_cons_self d ds)
    · exact Or.inr (List.mem_cons_of_mem d h)

theorem runStatsFrom_delay_avg :
    ∀ ds : List ℚ, ∀ s : Stats,
      (runStatsFrom s ds).delay_avg = ds.foldl pushWindow s.delay_avg := by
  intro ds
  induction ds with
  | nil => intro s; rfl
  | cons d ds ih =>
    intro s
    simp only [runStatsFrom, List.foldl_cons] at *
    rw [ih]
    simp [statsStep]

theorem runStatsFrom_max_delay :
    ∀ ds : List ℚ, ∀ s : Stats,
      (runStatsFrom s ds).max_delay = ds.foldl max s.max_delay := by
  intro ds
  induction ds with
  | nil => intro s; rfl
  | cons d ds ih =>
    intro s
    simp only [runStatsFrom, List.foldl_cons] at *
    rw [ih]
    simp [statsStep]

theorem runStatsFrom_min_delay :
    ∀ ds : List ℚ, ∀ s : Stats,
      (runStatsFrom s ds).min_delay
        = ds.foldl (fun (m : WithTop ℚ) (d : ℚ) => min m (d : WithTop ℚ)) s.min_delay := by
  intro ds
  induction ds with
  | nil => intro s; rfl
  | cons d ds ih =>
    intro s
    simp only [runStatsFrom, List.foldl_cons] at *
    rw [ih]
    simp [statsStep]

theorem runStatsFrom_delay_history :
    ∀ ds : List ℚ, ∀ s : Stats,
      (runStatsFrom s ds).delay_history = s.delay_history ++ ds := by
  intro ds
  induction ds with
  | nil => intro s; simp [runStatsFrom]
  | cons d ds ih =>
    intro s
    simp only [runStatsFrom, List.foldl_cons] at *
    rw [ih]
    simp [statsStep]

theorem foldl_minT_le_self :
    ∀ ds : List ℚ, ∀ a : WithTop ℚ,
      ds.foldl (fun (m : WithTop ℚ) (d : ℚ) => min m (d : WithTop ℚ)) a ≤ a := by
  intro ds
  induction ds with
  | nil => intro a; exact le_rfl
  | cons d ds ih =>
    intro a
    exact le_trans (ih (min a (d : WithTop ℚ))) (min_le_left _ _)

theorem foldl_minT_le_mem :
    ∀ ds : List ℚ, ∀ a : WithTop ℚ, ∀ d : ℚ, d ∈ ds →
      ds.foldl (fun (m : WithTop ℚ) (d : ℚ) => min m (d : WithTop ℚ)) a ≤ (d : WithTop ℚ) := by
  intro ds
  induction ds with
  | nil => intro a d hd; cases hd
  | cons e ds ih =>
    intro a d hd
    rcases List.mem_cons.mp hd with h | h
    · subst h
      exact le_trans (foldl_minT_le_self ds (min a (d : WithTop ℚ)))
        (min_le_right _ _)
    · exact ih (min a (e : WithTop ℚ)) d h

theorem foldl_minT_attained :
    ∀ ds : List ℚ, ∀ a : WithTop ℚ,
      ds.foldl (fun (m : WithTop ℚ) (d : ℚ) => min m (d : WithTop ℚ)) a = a
        ∨ ∃ d ∈ ds, ds.foldl (fun (m : WithTop ℚ) (d : ℚ) => min m (d : WithTop ℚ)) a
            = (d : WithTop ℚ) := by
  intro ds
  induction ds with
  | nil => intro a; exact Or.inl rfl
  | cons d ds ih =>
    intro a
    simp only [List.foldl_cons]
    rcases ih (min a (d : WithTop ℚ)) with h | h
    · rw [h]
      rcases min_choice a (d : WithTop ℚ) with h2 | h2
      · exact Or.inl h2
      · exact Or.inr ⟨d, List.mem_cons_self d ds, h2⟩
    · obtain ⟨e, he, heq⟩ := h
      exact Or.inr ⟨e, List.mem_cons_of_mem d he, heq⟩

theorem pushWindow_getLast (w : List ℚ) (d : ℚ) :
    (pushWindow w d).getLast? = some d := by
  unfold pushWindow
  by_cases h : DELAY_WINDOW < (w ++ [d]).length
  · rw [if_pos h]
    cases w with
    | nil =>
      simp only [List.length_append, List.length_nil, List.length_cons,
        DELAY_WINDOW] at h
      omega
    | cons x w =>
      simp
  · rw [if_neg h]
    simp

theorem pushWindow_mem (w : List ℚ) (d : ℚ) : d ∈ pushWindow w d := by
  unfold pushWindow
  by_cases h : DELAY_WINDOW < (w ++ [d]).length
  · rw [if_pos h]
    cases w with
    | nil =>
      simp only [List.length_append, List.length_nil, List.length_cons,
        DELAY_WINDOW] at h
      omega
    | cons x w =>
      simp
  · rw [if_neg h]
    simp

theorem pushWindow_ne_nil (w : List ℚ) (d : ℚ) : pushWindow w d ≠ [] := by
  intro hnil
  have := pushWindow_mem w d
  rw [hnil] at this
  cases this

theorem runNet_invariant :
    ∀ chunks : List (List Nat), ∀ s : NetState,
      s.total_received * MSG_SIZE + s.buffer.length = s.total_bytes →
      s.buffer.length < MSG_SIZE →
      (chunks.foldl netStep s).total_received * MSG_SIZE
          + ((chunks.foldl netStep s).buffer).length
        = (chunks.foldl netStep s).total_bytes
      ∧ ((chunks.foldl netStep s).buffer).length < MSG_SIZE := by
  intro chunks
  induction chunks with
  | nil =>
    intro s h1 h2
    exact ⟨h1, h2⟩
  | cons c cs ih =>
    intro s h1 h2
    simp only [List.foldl_cons]
    apply ih
    · have hdl := drain_length (s.buffer ++ c)
      simp only [List.length_append] at hdl
      simp only [netStep, MSG_SIZE] at *
      omega
    · exact drain_rest_lt (s.buffer ++ c)

/-- C10: after every read-and-drain round, the receiver's counters satisfy
`total_received * 24 + |buffer| = total_bytes`; equivalently `total_received`
is `total_bytes` divided by the frame size and the buffered remainder length
is the division's remainder. -/
theorem C10_counter_invariant (chunks : List (List Nat)) :
    (runNet chunks).total_received * MSG_SIZE
        + ((runNet chunks).buffer).length = (runNet chunks).total_bytes
    ∧ (runNet chunks).total_received = (runNet chunks).total_bytes / MSG_SIZE
    ∧ ((runNet chunks).buffer).length = (runNet chunks).total_bytes % MSG_SIZE := by
  have h := runNet_invariant chunks initNet (by simp [initNet]) (by
    simp [initNet, MSG_SIZE])
  have h1 := h.1
  have h2 := h.2
  refine ⟨h1, ?_, ?_⟩
  · simp only [runNet, MSG_SIZE] at *
    omega
  · simp only [runNet, MSG_SIZE] at *
    omega

/-- C5: after any append-and-drain round of the stream reassembler the
buffered remainder holds between 0 and 23 bytes, strictly less than one
24-byte frame. -/
theorem C5_remainder_bounded (buf chunk : List Nat) :
    ((drain (buf ++ chunk)).2).length ≤ 23 := by
  have h := drain_rest_lt (buf ++ chunk)
  simp only [MSG_SIZE] at h
  omega

/-- C3: feeding a byte sequence in successive non-empty chunks produces the
same decoded `GPSData` sequence, in the same order, as feeding the whole
concatenation as one single chunk. -/
theorem C3_chunking_invariance (chunks : List (List Nat))
    (hne : ∀ c ∈ chunks, c ≠ []) :
    ((feedChunks [] chunks).1).map unpack_data
      = ((drain chunks.flatten).1).map unpack_data := by
  have h := feedChunks_eq_drain chunks [] (by simp [MSG_SIZE])
  rw [h]
  simp

/-- Closed witness for C3 at a concrete chunking that straddles a frame
boundary. -/
theorem C3_chunking_invariance_witness :
    (∀ c ∈ [List.replicate 20 (7 : Nat), List.replicate 28 (9 : Nat)], c ≠ [])
    ∧ ((feedChunks []
          [List.replicate 20 (7 : Nat), List.replicate 28 (9 : Nat)]).1).map
            unpack_data
      = ((drain ([List.replicate 20 (7 : Nat),
            List.replicate 28 (9 : Nat)]).flatten).1).map unpack_data :=
  ⟨by decide, C3_chunking_invariance
    [List.replicate 20 (7 : Nat), List.replicate 28 (9 : Nat)] (by decide)⟩

/-- Counterexample to C7 as stated: feeding 20 bytes and then 28 bytes gives
48 bytes total, which is two whole 24-byte frames, so the second call yields
two decoded Fixes, not exactly one (the remainder is indeed 0 bytes). -/
theorem C7_counterexample :
    ((feedChunks [] [List.replicate 20 (0 : Nat),
        List.replicate 28 (0 : Nat)]).1).length = 2
    ∧ (feedChunks [] [List.replicate 20 (0 : Nat),
        List.replicate 28 (0 : Nat)]).2 = []
    ∧ (2 : Nat) ≠ 1 := by
  refine ⟨by decide, by decide, by decide⟩

/-- C7 amended: feeding 20 bytes and then 28 bytes (straddling one 24-byte
frame boundary) yields no Fix after the first call and exactly two decoded
Fixes after the second call, with 0 bytes remaining buffered. -/
theorem C7_straddle_amended (c1 c2 : List Nat)
    (h1 : c1.length = 20) (h2 : c2.length = 28) :
    (feedChunks [] [c1]).1 = []
    ∧ ((feedChunks [] [c1, c2]).1).length = 2
    ∧ (feedChunks [] [c1, c2]).2 = [] := by
  have hfeed := feedChunks_eq_drain [c1, c2] [] (by simp [MSG_SIZE])
  have hfeed1 := feedChunks_eq_drain [c1] [] (by simp [MSG_SIZE])
  simp only [List.flatten_cons, List.flatten_nil, List.append_nil,
    List.nil_append] at hfeed hfeed1
  have hlen : (c1 ++ c2).length = 48 := by
    simp [List.length_append, h1, h2]
  have hdl := drain_length (c1 ++ c2)
  have hdr := drain_rest_lt (c1 ++ c2)
  rw [hlen] at hdl
  simp only [MSG_SIZE] at hdl hdr
  refine ⟨?_, ?_, ?_⟩
  · rw [hfeed1, drain_eq, if_neg (by simp [MSG_SIZE, h1])]
  · rw [hfeed]
    omega
  · rw [hfeed]
    have : ((drain (c1 ++ c2)).2).length = 0 := by omega
    exact List.eq_nil_of_length_eq_zero this

/-- Closed witness for the amended C7 at concrete 20- and 28-byte chunks. -/
theorem C7_straddle_amended_witness :
    (List.replicate 20 (3 : Nat)).length = 20
    ∧ (List.replicate 28 (4 : Nat)).length = 28
    ∧ ((feedChunks [] [List.replicate 20 (3 : Nat)]).1 = []
      ∧ ((feedChunks [] [List.replicate 20 (3 : Nat),
          List.replicate 28 (4 : Nat)]).1).length = 2
      ∧ (feedChunks [] [List.replicate 20 (3 : Nat),
          List.replicate 28 (4 : Nat)]).2 = []) :=
  ⟨by decide, by decide, C7_straddle_amended (List.replicate 20 (3 : Nat))
    (List.replicate 28 (4 : Nat)) (by decide) (by decide)⟩

/-- C4: after any sequence of updates the rolling window holds at most 5
samples, and it holds exactly the most recent (at most 5) samples in arrival
order — the oldest is evicted when a 6th arrives. -/
theorem C4_window_fifo (ds : List ℚ) :
    ((runStats ds).delay_avg).length ≤ 5
    ∧ (runStats ds).delay_avg = ds.drop (ds.length - 5) := by
  have h : (runStats ds).delay_avg = ds.drop (ds.length - 5) := by
    rw [runStats, runStatsFrom_delay_avg]
    have h0 := foldl_pushWindow_eq_drop ds [] (by simp [DELAY_WINDOW])
    simp only [initStats, List.nil_append, List.length_nil, Nat.zero_add,
      DELAY_WINDOW] at h0
    exact h0
  refine ⟨?_, h⟩
  rw [h]
  simp only [List.length_drop]
  omega

/-- C9: across two successive update calls the running global maximum never
decreases and the running global minimum never increases. -/
theorem C9_extrema_monotone (s : Stats) (d1 d2 : ℚ) :
    ((statsStep s d1).1).max_delay
        ≤ ((statsStep (statsStep s d1).1 d2).1).max_delay
    ∧ ((statsStep (statsStep s d1).1 d2).1).min_delay
        ≤ ((statsStep s d1).1).min_delay := by
  constructor
  · exact le_max_left _ _
  · exact min_le_left _ _

/-- Counterexample to C2 as stated: the running maximum is seeded at `0.0`
(`double max_delay = 0.0;`), not at negative infinity, so after the single
all-negative sample `-1` the code reports `0`, not the exact maximum `-1`. -/
theorem C2_counterexample :
    (runStats [(-1 : ℚ)]).max_delay = 0
    ∧ (runStats [(-1 : ℚ)]).max_delay ≠ -1 := by
  constructor
  · show max (0 : ℚ) (-1) = 0
    norm_num
  · show max (0 : ℚ) (-1) ≠ -1
    norm_num

/-- C2 amended: the running minimum is seeded at positive infinity and equals
the exact minimum of all delays seen, but the running maximum is seeded at
`0.0`, so it equals the maximum of all delays and `0`: it is an upper bound
of the samples, is at least `0`, and is attained by a sample or equal to the
`0` seed (so with all-negative delays it stays `0`). -/
theorem C2_extrema_amended (ds : List ℚ) :
    (0 ≤ (runStats ds).max_delay)
    ∧ (∀ d ∈ ds, d ≤ (runStats ds).max_delay)
    ∧ ((runStats ds).max_delay = 0 ∨ (runStats ds).max_delay ∈ ds)
    ∧ (∀ d ∈ ds, (runStats ds).min_delay ≤ (d : WithTop ℚ))
    ∧ ((runStats ds).min_delay = ⊤
        ∨ ∃ d ∈ ds, (runStats ds).min_delay = (d : WithTop ℚ)) := by
  have hmax : (runStats ds).max_delay = ds.foldl max 0 := by
    rw [runStats, runStatsFrom_max_delay]
    rfl
  have hmin : (runStats ds).min_delay
      = ds.foldl (fun (m : WithTop ℚ) (d : ℚ) => min m (d : WithTop ℚ)) ⊤ := by
    rw [runStats, runStatsFrom_min_delay]
    rfl
  refine ⟨?_, ?_, ?_, ?_, ?_⟩
  · rw [hmax]
    exact foldl_max_self_le ds 0
  · intro d hd
    rw [hmax]
    exact foldl_max_mem_le ds 0 d hd
  · rw [hmax]
    exact foldl_max_attained ds 0
  · intro d hd
    rw [hmin]
    exact foldl_minT_le_mem ds ⊤ d hd
  · rw [hmin]
    exact foldl_minT_attained ds ⊤

/-- Counterexample to C8 as stated: after six samples the receiver's state
holds all six delays in `delay_history` (`metrics.delay_history.push_back`),
a per-sample history strictly beyond the 5-entry rolling window. -/
theorem C8_counterexample :
    ((runStats [1, 2, 3, 4, 5, 6]).delay_history).length = 6
    ∧ ((runStats [1, 2, 3, 4, 5, 6]).delay_avg).length = 5
    ∧ 5 < 6 := by
  refine ⟨?_, ?_, by omega⟩
  · rw [runStats, runStatsFrom_delay_history]
    rfl
  · rw [runStats, runStatsFrom_delay_avg]
    show (List.foldl pushWindow ([] : List ℚ) [1, 2, 3, 4, 5, 6]).length = 5
    have h0 := foldl_pushWindow_eq_drop [1, 2, 3, 4, 5, 6] []
      (by simp [DELAY_WINDOW])
    simp only [List.nil_append] at h0
    rw [h0]
    rfl

/-- C8 amended: besides the bounded 5-entry rolling window the receiver also
retains an unbounded per-sample history: after any session `delay_history`
holds every delay seen, in arrival order, so the rolling window is not the
only per-sample history in the receiver's state. -/
theorem C8_history_amended (ds : List ℚ) :
    (runStats ds).delay_history = ds
    ∧ ((runStats ds).delay_history).length = ds.length := by
  have h : (runStats ds).delay_history = ds := by
    rw [runStats, runStatsFrom_delay_history]
    rfl
  exact ⟨h, by rw [h]⟩

/-- C6: when the receipt wall-clock time is earlier than the decoded send
timestamp the computed delay is negative, and that negative value itself is
stored (as the newest entry) in the rolling window, participates in the
rolling average (the emitted average times the window size is the window sum,
which includes it), and is handed to the render sink unchanged. -/
theorem C6_negative_delay_preserved (s : Stats) (now_ts sent_ts : ℚ)
    (h : now_ts < sent_ts) :
    calculate_latency now_ts sent_ts < 0
    ∧ ((statsStep s (calculate_latency now_ts sent_ts)).1).delay_avg.getLast?
        = some (calculate_latency now_ts sent_ts)
    ∧ calculate_latency now_ts sent_ts
        ∈ ((statsStep s (calculate_latency now_ts sent_ts)).1).delay_avg
    ∧ ((statsStep s (calculate_latency now_ts sent_ts)).2).current_delay
        = calculate_latency now_ts sent_ts
    ∧ ((statsStep s (calculate_latency now_ts sent_ts)).2).avg_delay
          * ((((statsStep s (calculate_latency now_ts sent_ts)).1).delay_avg).length : ℚ)
        = (((statsStep s (calculate_latency now_ts sent_ts)).1).delay_avg).sum := by
  set d := calculate_latency now_ts sent_ts with hd
  have hneg : d < 0 := by
    rw [hd]
    unfold calculate_latency
    have hsub : now_ts - sent_ts < 0 := by linarith
    nlinarith
  have hwin : ((statsStep s d).1).delay_avg = pushWindow s.delay_avg d := rfl
  have hev : ((statsStep s d).2).current_delay = d := rfl
  have havg : ((statsStep s d).2).avg_delay = avgDelay (pushWindow s.delay_avg d) := rfl
  refine ⟨hneg, ?_, ?_, hev, ?_⟩
  · rw [hwin]
    exact pushWindow_getLast s.delay_avg d
  · rw [hwin]
    exact pushWindow_mem s.delay_avg d
  · rw [hwin, havg]
    unfold avgDelay
    rw [if_neg (by
      simp only [List.isEmpty_iff]
      exact pushWindow_ne_nil s.delay_avg d)]
    have hlen : ((pushWindow s.delay_avg d).length : ℚ) ≠ 0 := by
      have := pushWindow_ne_nil s.delay_avg d
      simp only [ne_eq, Nat.cast_eq_zero, List.length_eq_zero]
      exact this
    field_simp

/-- Closed witness for C6: receipt at time 0, send timestamp 1, from the
initial statistics state. -/
theorem C6_negative_delay_preserved_witness :
    (0 : ℚ) < 1
    ∧ (calculate_latency 0 1 < 0
      ∧ ((statsStep initStats (calculate_latency 0 1)).1).delay_avg.getLast?
          = some (calculate_latency 0 1)
      ∧ calculate_latency 0 1
          ∈ ((statsStep initStats (calculate_latency 0 1)).1).delay_avg
      ∧ ((statsStep initStats (calculate_latency 0 1)).2).current_delay
          = calculate_latency 0 1
      ∧ ((statsStep initStats (calculate_latency 0 1)).2).avg_delay
            * ((((statsStep initStats (calculate_latency 0 1)).1).delay_avg).length : ℚ)
          = (((statsStep initStats (calculate_latency 0 1)).1).delay_avg).sum) :=
  ⟨by norm_num, C6_negative_delay_preserved initStats 0 1 (by norm_num)⟩

/-- The 24-byte test frame of the claim: big-endian IEEE-754 bit patterns of
lat = 37.422 (`0x4215B021`), lon = -122.084 (`0xC2F42B02`) and
alt = 30.0 (`0x41F00000`), then the 64-bit big-endian send timestamp
T = 1700000000; `unpack_data` never reads the final 4 bytes of a record. -/
def testFrame : List Nat :=
  [66, 21, 176, 33, 194, 244, 43, 2, 65, 240, 0, 0,
    0, 0, 0, 0, 101, 83, 241, 0, 0, 0, 0, 0]

/-- C1: on the frame carrying the IEEE-754 bit patterns of lat = 37.422,
lon = -122.084, alt = 30.0 and T = 1700000000, `unpack_data` converts each
network-order integer *numerically* into the float field instead of
reinterpreting its bits, so the decoded latitude is 1108717568 (the 32-bit
pattern rounded to float precision), about 1.1e9 and not within 1e-3 of
37.422; longitude and altitude are likewise integer magnitudes, while the
timestamp survives as the plain integer T. -/
theorem C1_decode_integer_not_float :
    (unpack_data testFrame).lat = 1108717568
    ∧ ¬ |(unpack_data testFrame).lat - 37422 / 1000| ≤ 1 / 1000
    ∧ (unpack_data testFrame).lon = 3270781696
    ∧ ¬ |(unpack_data testFrame).lon - (-122084 / 1000)| ≤ 1 / 1000
    ∧ (unpack_data testFrame).alt = 1106247680
    ∧ ¬ |(unpack_data testFrame).alt - 30| ≤ 1 / 1000
    ∧ (unpack_data testFrame).timestamp = 1700000000 := by
  have hlat : (unpack_data testFrame).lat = 1108717568 := by decide
  have hlon : (unpack_data testFrame).lon = 3270781696 := by decide
  have halt : (unpack_data testFrame).alt = 1106247680 := by decide
  have hts : (unpack_data testFrame).timestamp = 1700000000 := by decide
  refine ⟨hlat, ?_, hlon, ?_, halt, ?_, hts⟩
  · rw [hlat]
    rw [abs_le]
    norm_num
  · rw [hlon]
    rw [abs_le]
    norm_num
  · rw [halt]
    rw [abs_le]
    norm_num

/-- Closed witness for the amended C2 at a concrete mixed-sign session. -/
theorem C2_extrema_amended_witness :
    (0 ≤ (runStats [(-2 : ℚ), 3]).max_delay)
    ∧ (∀ d ∈ [(-2 : ℚ), 3], d ≤ (runStats [(-2 : ℚ), 3]).max_delay)
    ∧ ((runStats [(-2 : ℚ), 3]).max_delay = 0
        ∨ (runStats [(-2 : ℚ), 3]).max_delay ∈ [(-2 : ℚ), 3])
    ∧ (∀ d ∈ [(-2 : ℚ), 3],
        (runStats [(-2 : ℚ), 3]).min_delay ≤ (d : WithTop ℚ))
    ∧ ((runStats [(-2 : ℚ), 3]).min_delay = ⊤
        ∨ ∃ d ∈ [(-2 : ℚ), 3],
            (runStats [(-2 : ℚ), 3]).min_delay = (d : WithTop ℚ)) :=
  C2_extrema_amended [(-2 : ℚ), 3]

end Receiver
